import Mathlib

/-!
Verification of the argocd-preprocessor project processor
(`src/processor.rs`, `src/app_project.rs`).

Modelling conventions:
* `serde_json::Value` is modelled by `JValue`; `serde_json::Map` is modelled
  as an association list over `String` keys (JSON numbers are modelled as
  integers, since none of the verified code distinguishes floating point).
* Rust `HashSet` fields are modelled as duplicate-free lists built by
  `hsetInsert` (insertion of a present element is a no-op).
* Filesystem access, the tera template engine and subprocess execution are
  external collaborators; they enter the model as explicit function
  parameters (`render`, `runScript`, `copyFolder`).
* Filesystem paths are modelled as lists of components where the structure
  matters and as `/`-joined strings where the code stores a rendered path.
-/

/-! ## JSON-like option documents (`serde_json::Value`) -/

inductive JValue where
  | null
  | bool (b : Bool)
  | num (n : Int)
  | str (s : String)
  | arr (xs : List JValue)
  | obj (fields : List (String × JValue))

namespace JValue

/-- `serde_json::Value::is_null`. -/
def isNull : JValue → Bool
  | .null => true
  | _ => false

/-- Whether the value is a JSON object (used to state the non-map branch of `merge`). -/
def isObj : JValue → Bool
  | .obj _ => true
  | _ => false

end JValue

/-- Lookup in an association-list map (model of `serde_json::Map` access;
first binding of the key wins, maps built by the code never repeat keys). -/
def assocGet {α : Type} (k : String) : List (String × α) → Option α
  | [] => none
  | (k2, v) :: rest => if k2 = k then some v else assocGet k rest

/-- Update/insert a binding (model of `map.entry(k)` followed by assignment:
replaces the first binding of `k`, appends a new binding when absent). -/
def assocSet {α : Type} (k : String) (v : α) : List (String × α) → List (String × α)
  | [] => [(k, v)]
  | (k2, v2) :: rest => if k2 = k then (k, v) :: rest else (k2, v2) :: assocSet k v rest

/-- Remove all bindings of a key (model of `map.remove(k)`; maps built by the
code never repeat keys, where the two coincide). -/
def assocRemove {α : Type} (k : String) : List (String × α) → List (String × α)
  | [] => []
  | (k2, v) :: rest => if k2 = k then assocRemove k rest else (k2, v) :: assocRemove k rest

/-! ## `merge` (src/processor.rs lines 412-428)

The Rust code mutates `a` in place; the model returns the merged value.

```
fn merge(a: &mut serde_json::Value, b: serde_json::Value) {
    if let serde_json::Value::Object(a) = a {
        if let serde_json::Value::Object(b) = b {
            for (k, v) in b {
                if v.is_null() {
                    a.remove(&k);
                } else {
                    merge(a.entry(k).or_insert(serde_json::Value::Null), v);
                }
            }
            return;
        }
    }
    *a = b;
}
```
-/

mutual

/-- `merge` from src/processor.rs: overlay `b` onto `a`. -/
def merge : JValue → JValue → JValue
  | .obj ma, .obj mb => .obj (mergeInto ma mb)
  | _, b => b

/-- The `for (k, v) in b` loop of `merge`, acting on the two objects' maps. -/
def mergeInto : List (String × JValue) → List (String × JValue) → List (String × JValue)
  | ma, [] => ma
  | ma, (k, v) :: rest =>
    if v.isNull then mergeInto (assocRemove k ma) rest
    else mergeInto (assocSet k (merge ((assocGet k ma).getD JValue.null) v) ma) rest

end

/-- Path lookup inside nested JSON objects (to state where a key ended up). -/
def getPath : JValue → List String → Option JValue
  | v, [] => some v
  | JValue.obj m, k :: ks =>
    match assocGet k m with
    | some v => getPath v ks
    | none => none
  | _, _ :: _ => none

/-! ### Association-list lemmas -/

theorem assocGet_set_self {α : Type} (k : String) (v : α) :
    ∀ m : List (String × α), assocGet k (assocSet k v m) = some v := by
  intro m
  induction m with
  | nil => simp [assocGet, assocSet]
  | cons kv rest ih =>
    obtain ⟨k2, v2⟩ := kv
    by_cases h : k2 = k
    · simp [assocSet, assocGet, h]
    · simp [assocSet, assocGet, h, ih]

theorem assocGet_set_ne {α : Type} {k k2 : String} (h : k2 ≠ k) (v : α) :
    ∀ m : List (String × α), assocGet k (assocSet k2 v m) = assocGet k m := by
  intro m
  induction m with
  | nil => simp [assocGet, assocSet, h]
  | cons kv rest ih =>
    obtain ⟨k3, v3⟩ := kv
    by_cases h3 : k3 = k2
    · subst h3
      simp [assocSet, assocGet, h]
    · by_cases h4 : k3 = k
      · simp [assocSet, assocGet, h3, h4, Ne.symm h]
      · simp [assocSet, assocGet, h3, h4, ih]

theorem assocGet_remove_self {α : Type} (k : String) :
    ∀ m : List (String × α), assocGet k (assocRemove k m) = none := by
  intro m
  induction m with
  | nil => simp [assocGet, assocRemove]
  | cons kv rest ih =>
    obtain ⟨k2, v2⟩ := kv
    by_cases h : k2 = k
    · simpa [assocRemove, assocGet, h] using ih
    · simpa [assocRemove, assocGet, h] using ih

theorem assocGet_remove_ne {α : Type} {k k2 : String} (h : k2 ≠ k) :
    ∀ m : List (String × α), assocGet k (assocRemove k2 m) = assocGet k m := by
  intro m
  induction m with
  | nil => simp [assocGet, assocRemove]
  | cons kv rest ih =>
    obtain ⟨k3, v3⟩ := kv
    by_cases h3 : k3 = k2
    · subst h3
      simp [assocRemove, assocGet, h, ih]
    · by_cases h4 : k3 = k
      · simp [assocRemove, assocGet, h3, h4, Ne.symm h, ih]
      · simp [assocRemove, assocGet, h3, h4, ih]

theorem assocGet_none_of_not_mem {α : Type} {k : String} :
    ∀ {m : List (String × α)}, k ∉ m.map Prod.fst → assocGet k m = none := by
  intro m
  induction m with
  | nil => intro _; simp [assocGet]
  | cons kv rest ih =>
    obtain ⟨k2, v2⟩ := kv
    intro h
    simp only [List.map_cons, List.mem_cons] at h
    push_neg at h
    simp [assocGet, Ne.symm h.1, ih h.2]

/-! ### The merge characterization -/

/-- What a lookup in the merged object yields, stated after the spec's words:
null overlay values delete the key, map/map pairs merge recursively (via
`merge`), anything else is replaced by the overlay value. -/
def mergeLookupSpec (ma mb : List (String × JValue)) (k : String) : Option JValue :=
  match assocGet k mb with
  | none => assocGet k ma
  | some v => if v.isNull then none else some (merge ((assocGet k ma).getD JValue.null) v)

theorem mergeInto_lookup (k : String) :
    ∀ (mb ma : List (String × JValue)), (mb.map Prod.fst).Nodup →
      assocGet k (mergeInto ma mb) = mergeLookupSpec ma mb k := by
  intro mb
  induction mb with
  | nil =>
    intro ma _
    simp [mergeInto, mergeLookupSpec, assocGet]
  | cons kv rest ih =>
    obtain ⟨k2, v⟩ := kv
    intro ma hnd
    simp only [List.map_cons, List.nodup_cons] at hnd
    obtain ⟨hk2, hrest⟩ := hnd
    have hgrest : assocGet k2 rest = none := assocGet_none_of_not_mem hk2
    by_cases hv : v.isNull
    · rw [show mergeInto ma ((k2, v) :: rest) = mergeInto (assocRemove k2 ma) rest by
        simp [mergeInto, hv]]
      rw [ih (assocRemove k2 ma) hrest]
      by_cases hk : k2 = k
      · subst hk
        simp [mergeLookupSpec, assocGet, hgrest, assocGet_remove_self, hv]
      · have h1 : mergeLookupSpec (assocRemove k2 ma) rest k = mergeLookupSpec ma rest k := by
          simp only [mergeLookupSpec, assocGet_remove_ne hk]
        rw [h1]
        simp [mergeLookupSpec, assocGet, hk]
    · rw [show mergeInto ma ((k2, v) :: rest)
          = mergeInto (assocSet k2 (merge ((assocGet k2 ma).getD JValue.null) v) ma) rest by
        simp [mergeInto, hv]]
      rw [ih _ hrest]
      by_cases hk : k2 = k
      · subst hk
        simp [mergeLookupSpec, assocGet, hgrest, assocGet_set_self, hv]
      · have h1 : mergeLookupSpec (assocSet k2 (merge ((assocGet k2 ma).getD JValue.null) v) ma)
            rest k = mergeLookupSpec ma rest k := by
          simp only [mergeLookupSpec, assocGet_set_ne hk]
        rw [h1]
        simp [mergeLookupSpec, assocGet, hk]

/-- C1 (counterexample): the claim "every key whose value in the overlay's
top-level or nested map structures is null is absent from the merged result"
fails on the code: merging base `{}` with overlay `{"a": {"b": null}}` keeps
the nested key `"b"` in the result, bound to null, because the overlay map at
`"a"` replaces the (absent) base value verbatim instead of being recursed
into. -/
theorem merge_nested_null_counterexample :
    merge (JValue.obj []) (JValue.obj [("a", JValue.obj [("b", JValue.null)])])
      = JValue.obj [("a", JValue.obj [("b", JValue.null)])] ∧
    getPath (merge (JValue.obj []) (JValue.obj [("a", JValue.obj [("b", JValue.null)])]))
        ["a", "b"] = some JValue.null := by
  constructor
  · simp [merge, mergeInto, assocSet, assocGet, assocRemove, JValue.isNull]
  · simp [merge, mergeInto, assocSet, assocGet, assocRemove, JValue.isNull, getPath]

/-- C1 (amended): at every level where the merge actually recurses (the top
level of two maps, and below keys where both sides hold maps), a null overlay
value removes the key, a map/map pair is merged recursively, and any other
overlay value replaces the base value verbatim — nulls nested inside such a
verbatim-replacing overlay value are kept, not deleted. -/
theorem merge_null_delete_semantics (ma mb : List (String × JValue)) (k : String)
    (a b : JValue) (hnd : (mb.map Prod.fst).Nodup)
    (hab : a.isObj = false ∨ b.isObj = false) :
    merge (JValue.obj ma) (JValue.obj mb) = JValue.obj (mergeInto ma mb) ∧
    merge a b = b ∧
    assocGet k (mergeInto ma mb) = mergeLookupSpec ma mb k := by
  refine ⟨by simp [merge], ?_, mergeInto_lookup k mb ma hnd⟩
  match a, b with
  | JValue.obj _, JValue.obj _ => simp [JValue.isObj] at hab
  | JValue.obj _, JValue.null => simp [merge]
  | JValue.obj _, JValue.bool _ => simp [merge]
  | JValue.obj _, JValue.num _ => simp [merge]
  | JValue.obj _, JValue.str _ => simp [merge]
  | JValue.obj _, JValue.arr _ => simp [merge]
  | JValue.null, _ => simp [merge]
  | JValue.bool _, _ => simp [merge]
  | JValue.num _, _ => simp [merge]
  | JValue.str _, _ => simp [merge]
  | JValue.arr _, _ => simp [merge]

/-- C1 witness: the amended characterization evaluated at a concrete
base/overlay pair (base `{"x": 1, "y": 2}`, overlay `{"x": null, "z": 3}`). -/
theorem merge_null_delete_semantics_witness :
    merge (JValue.obj [("x", JValue.num 1), ("y", JValue.num 2)])
        (JValue.obj [("x", JValue.null), ("z", JValue.num 3)])
      = JValue.obj (mergeInto [("x", JValue.num 1), ("y", JValue.num 2)]
        [("x", JValue.null), ("z", JValue.num 3)]) ∧
    merge (JValue.num 7) (JValue.str "s") = JValue.str "s" ∧
    assocGet "x" (mergeInto [("x", JValue.num 1), ("y", JValue.num 2)]
        [("x", JValue.null), ("z", JValue.num 3)])
      = mergeLookupSpec [("x", JValue.num 1), ("y", JValue.num 2)]
        [("x", JValue.null), ("z", JValue.num 3)] "x" :=
  merge_null_delete_semantics [("x", JValue.num 1), ("y", JValue.num 2)]
    [("x", JValue.null), ("z", JValue.num 3)] "x" (JValue.num 7) (JValue.str "s")
    (by simp) (Or.inl (by simp [JValue.isObj]))

/-! ## `sanitize_name` (src/processor.rs lines 371-384)

```
fn sanitize_name(name: &str) -> String {
    let invalid_dns_name_chars = regex::Regex::new(r"[^-a-z0-9.]").unwrap();
    let max_dns_name_length = 253;
    let name = name.to_lowercase();
    let name = invalid_dns_name_chars.replace_all(&name, "-").to_string();
    let name = if name.len() > max_dns_name_length {
        name[..max_dns_name_length].to_string()
    } else { name };
    return name.trim_matches('-').to_string();
}
```
-/

/-- The regex character class `[-a-z0-9.]` by code point:
45 is `-`, 46 is `.`, 48-57 are `0`-`9`, 97-122 are `a`-`z`. -/
def isValidDnsChar (c : Char) : Bool :=
  c.toNat = 45 || c.toNat = 46 || (97 ≤ c.toNat && c.toNat ≤ 122) ||
    (48 ≤ c.toNat && c.toNat ≤ 57)

/-- ASCII-range lowercasing, per character (model of `str::to_lowercase`;
the Unicode cases outside ASCII are immaterial here because the next step
replaces every character outside `[-a-z0-9.]` with `-`). -/
def lowerChar (c : Char) : Char :=
  if 65 ≤ c.toNat && c.toNat ≤ 90 then Char.ofNat (c.toNat + 32) else c

/-- `invalid_dns_name_chars.replace_all(&name, "-")`: every character outside
`[-a-z0-9.]` becomes `-`. -/
def replaceInvalidChars (l : List Char) : List Char :=
  l.map (fun c => if isValidDnsChar c then c else '-')

/-- The truncation `name[..253]` (the sliced string is pure ASCII at this
point, so the byte index 253 is also the character index 253). -/
def truncate253 (l : List Char) : List Char := l.take 253

/-- `name.trim_matches('-')`: drop `-` from both ends. -/
def trimDashes (l : List Char) : List Char :=
  ((l.dropWhile (fun c => c == '-')).reverse.dropWhile (fun c => c == '-')).reverse

/-- `sanitize_name`, character-list pipeline. -/
def sanitizeChars (l : List Char) : List Char :=
  trimDashes (truncate253 (replaceInvalidChars (l.map lowerChar)))

/-- `sanitize_name` from src/processor.rs. -/
def sanitize_name (s : String) : String := String.mk (sanitizeChars s.data)

theorem isValidDnsChar_dash : isValidDnsChar '-' = true := by decide

theorem replaceInvalidChars_valid {l : List Char} :
    ∀ c ∈ replaceInvalidChars l, isValidDnsChar c = true := by
  intro c hc
  simp only [replaceInvalidChars, List.mem_map] at hc
  obtain ⟨c0, _, rfl⟩ := hc
  by_cases h : isValidDnsChar c0
  · simp [h]
  · simp [h, isValidDnsChar_dash]

theorem dropWhile_head_not_sat {α : Type} (p : α → Bool) :
    ∀ {l : List α} {a : α}, (l.dropWhile p).head? = some a → p a = false := by
  intro l
  induction l with
  | nil => intro a h; simp [List.dropWhile] at h
  | cons b t ih =>
    intro a h
    by_cases hb : p b
    · exact ih (by simpa [List.dropWhile, hb] using h)
    · rw [List.dropWhile_cons_of_neg hb] at h
      simp only [List.head?_cons, Option.some.injEq] at h
      subst h
      simpa using hb

theorem dropWhile_is_suffix {α : Type} (p : α → Bool) :
    ∀ l : List α, ∃ t : List α, t ++ l.dropWhile p = l := by
  intro l
  induction l with
  | nil => exact ⟨[], rfl⟩
  | cons b t ih =>
    by_cases hb : p b
    · obtain ⟨u, hu⟩ := ih
      exact ⟨b :: u, by simp [List.dropWhile_cons_of_pos hb, hu]⟩
    · exact ⟨[], by simp [List.dropWhile_cons_of_neg hb]⟩

theorem getLast?_of_suffix {α : Type} {l2 l1 : List α} (t : List α)
    (heq : t ++ l2 = l1) (hne : l2 ≠ []) : l1.getLast? = l2.getLast? := by
  subst heq
  exact List.getLast?_append_of_ne_nil t hne

theorem trimDashes_head (l : List Char) {a : Char} (h : (trimDashes l).head? = some a) :
    (a == '-') = false := by
  unfold trimDashes at h
  rw [List.head?_reverse] at h
  have hne : (l.dropWhile (fun c => c == '-')).reverse.dropWhile (fun c => c == '-') ≠ [] := by
    intro hnil
    rw [hnil] at h
    simp at h
  obtain ⟨t, ht⟩ :=
    dropWhile_is_suffix (fun c => c == '-') (l.dropWhile (fun c => c == '-')).reverse
  have h2 : (l.dropWhile (fun c => c == '-')).reverse.getLast? = some a :=
    (getLast?_of_suffix t ht hne).trans h
  rw [List.getLast?_reverse] at h2
  exact dropWhile_head_not_sat (fun c => c == '-') h2

theorem trimDashes_getLast (l : List Char) {a : Char}
    (h : (trimDashes l).getLast? = some a) : (a == '-') = false := by
  unfold trimDashes at h
  rw [List.getLast?_reverse] at h
  exact dropWhile_head_not_sat (fun c => c == '-') h

theorem trimDashes_sublist (l : List Char) : (trimDashes l).Sublist l := by
  unfold trimDashes
  have h1 : (l.dropWhile (fun c => c == '-')).Sublist l := List.dropWhile_sublist _
  have h2 : ((l.dropWhile (fun c => c == '-')).reverse.dropWhile
      (fun c => c == '-')).Sublist (l.dropWhile (fun c => c == '-')).reverse :=
    List.dropWhile_sublist _
  have h3 := h2.reverse
  rw [List.reverse_reverse] at h3
  exact h3.trans h1

theorem sanitizeChars_mem_valid (l : List Char) :
    ∀ c ∈ sanitizeChars l, isValidDnsChar c = true := by
  intro c hc
  have h1 : c ∈ truncate253 (replaceInvalidChars (l.map lowerChar)) :=
    (trimDashes_sublist _).subset hc
  have h2 : c ∈ replaceInvalidChars (l.map lowerChar) :=
    (List.take_sublist _ _).subset h1
  exact replaceInvalidChars_valid c h2

theorem sanitizeChars_length (l : List Char) : (sanitizeChars l).length ≤ 253 := by
  have h1 : (sanitizeChars l).length ≤ (truncate253 (replaceInvalidChars (l.map lowerChar))).length :=
    (trimDashes_sublist _).length_le
  have h2 : (truncate253 (replaceInvalidChars (l.map lowerChar))).length ≤ 253 := by
    simp [truncate253]
  omega

/-- C2: `sanitize_name` always returns a string over the alphabet
`[a-z0-9.-]`, of length at most 253, with no leading or trailing `-`; and the
string the code byte-slices at index 253 is pure ASCII at that point, so the
slice is always at a character boundary and the function is total on every
input, non-ASCII included. -/
theorem sanitize_name_wellformed (s : String) :
    ((sanitize_name s).data.all isValidDnsChar = true) ∧
    (sanitize_name s).length ≤ 253 ∧
    (sanitize_name s).data.head? ≠ some '-' ∧
    (sanitize_name s).data.getLast? ≠ some '-' ∧
    ∀ c ∈ replaceInvalidChars (s.data.map lowerChar), c.toNat < 128 := by
  refine ⟨?_, ?_, ?_, ?_, ?_⟩
  · rw [List.all_eq_true]
    exact fun c hc => sanitizeChars_mem_valid s.data c hc
  · show (sanitizeChars s.data).length ≤ 253
    exact sanitizeChars_length s.data
  · intro h
    have := trimDashes_head (truncate253 (replaceInvalidChars (s.data.map lowerChar))) h
    simp at this
  · intro h
    have := trimDashes_getLast (truncate253 (replaceInvalidChars (s.data.map lowerChar))) h
    simp at this
  · intro c hc
    have hv := replaceInvalidChars_valid c hc
    simp only [isValidDnsChar, Bool.or_eq_true, decide_eq_true_eq, Bool.and_eq_true] at hv
    omega

/-! ### Idempotence of the sanitizer -/

theorem lowerChar_of_valid {c : Char} (h : isValidDnsChar c = true) : lowerChar c = c := by
  simp only [isValidDnsChar, Bool.or_eq_true, decide_eq_true_eq, Bool.and_eq_true] at h
  have hcond : ¬(65 ≤ c.toNat ∧ c.toNat ≤ 90) := by omega
  simp only [lowerChar, Bool.and_eq_true, decide_eq_true_eq, if_neg hcond]

theorem map_lowerChar_of_valid {l : List Char} (h : ∀ c ∈ l, isValidDnsChar c = true) :
    l.map lowerChar = l := by
  induction l with
  | nil => simp
  | cons a t ih =>
    have ha := h a (by simp)
    simp [lowerChar_of_valid ha, ih (fun c hc => h c (by simp [hc]))]

theorem replaceInvalidChars_of_valid {l : List Char}
    (h : ∀ c ∈ l, isValidDnsChar c = true) : replaceInvalidChars l = l := by
  induction l with
  | nil => simp [replaceInvalidChars]
  | cons a t ih =>
    have ha := h a (by simp)
    simp only [replaceInvalidChars, List.map_cons] at ih ⊢
    simp [ha, ih (fun c hc => h c (by simp [hc]))]

theorem dropWhile_eq_self_of_head {α : Type} (p : α → Bool) {l : List α}
    (h : ∀ a, l.head? = some a → p a = false) : l.dropWhile p = l := by
  cases l with
  | nil => simp
  | cons a t =>
    have ha : p a = false := h a rfl
    simp [List.dropWhile_cons, ha]

theorem trimDashes_of_trimmed {l : List Char}
    (hh : ∀ a, l.head? = some a → (a == '-') = false)
    (hl : ∀ a, l.getLast? = some a → (a == '-') = false) : trimDashes l = l := by
  unfold trimDashes
  rw [dropWhile_eq_self_of_head _ hh]
  rw [dropWhile_eq_self_of_head _ (fun a ha => hl a (by rwa [List.head?_reverse] at ha))]
  rw [List.reverse_reverse]

/-- C9: `sanitize_name` is idempotent — sanitizing an already-sanitized
string returns it unchanged. -/
theorem sanitize_name_idempotent (s : String) :
    sanitize_name (sanitize_name s) = sanitize_name s := by
  show String.mk (sanitizeChars (sanitizeChars s.data)) = String.mk (sanitizeChars s.data)
  have hvalid : ∀ c ∈ sanitizeChars s.data, isValidDnsChar c = true :=
    sanitizeChars_mem_valid s.data
  have h1 : (sanitizeChars s.data).map lowerChar = sanitizeChars s.data :=
    map_lowerChar_of_valid hvalid
  have h2 : replaceInvalidChars (sanitizeChars s.data) = sanitizeChars s.data :=
    replaceInvalidChars_of_valid hvalid
  have h3 : truncate253 (sanitizeChars s.data) = sanitizeChars s.data :=
    List.take_of_length_le (sanitizeChars_length s.data)
  have h4 : trimDashes (sanitizeChars s.data) = sanitizeChars s.data :=
    trimDashes_of_trimmed (fun a ha => trimDashes_head _ ha) (fun a ha => trimDashes_getLast _ ha)
  rw [show sanitizeChars (sanitizeChars s.data)
      = trimDashes (truncate253 (replaceInvalidChars ((sanitizeChars s.data).map lowerChar)))
      from rfl, h1, h2, h3, h4]

/-! ## `nindent_filter` (src/processor.rs lines 442-462)

```
fn nindent_filter(value, args) -> tera::Result<serde_json::Value> {
    let s = tera::try_get_value!("nindent", "value", String, value);
    let spaces = match args.get("spaces") {
        Some(spaces) => tera::try_get_value!("nindent", "spaces", usize, spaces),
        None => return Err(tera::Error::msg(
            "Filter `nindent` expected an arg called `spaces`")),
    };
    let indent = " ".repeat(spaces);
    let indent = format!("\n{}", indent);
    let s = format!("\n{}", s);
    let s = s.replace("\n", &indent);
    return Ok(serde_json::Value::String(s));
}
```
-/

/-- `serde_json::from_value::<usize>`: only non-negative integers convert. -/
def asUsize : JValue → Option Nat
  | .num n => if 0 ≤ n then some n.toNat else none
  | _ => none

/-- `s.replace("\n", &indent)` where `indent = "\n" + " ".repeat(n)`:
the pattern is the single character `\n`, so the replacement is per character. -/
def replaceNl (n : Nat) : List Char → List Char
  | [] => []
  | c :: cs =>
    if c = '\n' then '\n' :: (List.replicate n ' ' ++ replaceNl n cs)
    else c :: replaceNl n cs

/-- `nindent_filter` from src/processor.rs (the value is first converted to a
string, then the required `spaces` argument is read). -/
def nindent_filter (value : JValue) (args : List (String × JValue)) : Except String JValue :=
  match value with
  | .str s =>
    match assocGet "spaces" args with
    | none => Except.error "Filter `nindent` expected an arg called `spaces`"
    | some sp =>
      match asUsize sp with
      | none => Except.error "Filter `nindent` received spaces but it is not a usize"
      | some n => Except.ok (JValue.str (String.mk (replaceNl n ('\n' :: s.data))))
  | _ => Except.error "Filter `nindent` was used on a value that is not a string"

/-- Split a character list at newline characters (the lines of the string;
a trailing newline yields a final empty line, like `str::split`). -/
def splitNl : List Char → List (List Char)
  | [] => [[]]
  | c :: cs =>
    if c = '\n' then [] :: splitNl cs
    else
      match splitNl cs with
      | [] => [[c]]
      | h :: t => (c :: h) :: t

/-- The spec's reading of the filter output: every line of the input,
including the first, preceded by a newline and `n` literal spaces. -/
def nindentJoin (n : Nat) (l : List Char) : List Char :=
  List.flatten ((splitNl l).map (fun line => '\n' :: (List.replicate n ' ' ++ line)))

theorem splitNl_ne_nil : ∀ l : List Char, splitNl l ≠ [] := by
  intro l
  induction l with
  | nil => simp [splitNl]
  | cons c cs ih =>
    by_cases hc : c = '\n'
    · simp [splitNl, hc]
    · simp only [splitNl, if_neg hc]
      cases hsp : splitNl cs with
      | nil => simp
      | cons h t => simp

theorem replaceNl_join (n : Nat) : ∀ l : List Char,
    replaceNl n l = ((splitNl l).headD [])
      ++ List.flatten (((splitNl l).tail).map (fun line => '\n' :: (List.replicate n ' ' ++ line))) := by
  intro l
  induction l with
  | nil => simp [replaceNl, splitNl]
  | cons c cs ih =>
    by_cases hc : c = '\n'
    · subst hc
      obtain ⟨h0, t0, heq⟩ := List.exists_cons_of_ne_nil (splitNl_ne_nil cs)
      simp only [replaceNl, if_pos rfl, splitNl, List.headD_cons, List.tail_cons, ih, heq,
        List.map_cons, List.flatten, List.nil_append]
      simp
    · obtain ⟨h0, t0, heq⟩ := List.exists_cons_of_ne_nil (splitNl_ne_nil cs)
      simp only [replaceNl, if_neg hc, splitNl, heq, List.headD_cons, List.tail_cons, List.map_cons]
      rw [ih, heq]
      simp

theorem replaceNl_after_newline (n : Nat) (l : List Char) :
    replaceNl n ('\n' :: l) = nindentJoin n l := by
  rw [show replaceNl n ('\n' :: l) = '\n' :: (List.replicate n ' ' ++ replaceNl n l) by
    simp [replaceNl]]
  rw [replaceNl_join n l]
  obtain ⟨h0, t0, heq⟩ := List.exists_cons_of_ne_nil (splitNl_ne_nil l)
  simp [nindentJoin, heq]

/-- C10: for a string value and a non-negative integer `spaces` argument `n`,
`nindent` returns the concatenation, over the lines of the input, of a
newline, `n` literal spaces and the line (so the result starts with a newline
and every line, the first included, is indented by `n` spaces); and a call
without the `spaces` argument fails with an error naming the filter. -/
theorem nindent_filter_spec (s s2 : String) (args args2 : List (String × JValue)) (n : Nat)
    (h : assocGet "spaces" args = some (JValue.num (Int.ofNat n)))
    (h2 : assocGet "spaces" args2 = none) :
    nindent_filter (JValue.str s) args
      = Except.ok (JValue.str (String.mk (nindentJoin n s.data))) ∧
    (nindentJoin n s.data).head? = some '\n' ∧
    nindent_filter (JValue.str s2) args2
      = Except.error "Filter `nindent` expected an arg called `spaces`" := by
  refine ⟨?_, ?_, ?_⟩
  · simp only [nindent_filter, h, asUsize]
    norm_num
    rw [replaceNl_after_newline]
  · obtain ⟨h0, t0, heq⟩ := List.exists_cons_of_ne_nil (splitNl_ne_nil s.data)
    simp [nindentJoin, heq]
  · simp [nindent_filter, h2]

/-- C10 witness: `nindent` on `"a\nb"` with 2 spaces, and a call with no
`spaces` argument. -/
theorem nindent_filter_spec_witness :
    nindent_filter (JValue.str "a\nb") [("spaces", JValue.num (Int.ofNat 2))]
      = Except.ok (JValue.str (String.mk (nindentJoin 2 "a\nb".data))) ∧
    (nindentJoin 2 "a\nb".data).head? = some '\n' ∧
    nindent_filter (JValue.str "x") []
      = Except.error "Filter `nindent` expected an arg called `spaces`" :=
  nindent_filter_spec "a\nb" "x" [("spaces", JValue.num (Int.ofNat 2))] [] 2
    (by simp [assocGet]) rfl

/-! ## `copy_and_template_folder` (src/processor.rs lines 327-363)

The walk over `fs::read_dir` is modelled over an in-memory tree `FsEntry`;
source paths are lists of components relative to the input root (the tera
template name of a `.tera` file is its path relative to that root, per
`path.strip_prefix(&self.input_path)`).  The walker returns the list of
(destination path, contents) writes it performs, or the first error.
`path.extension().unwrap()` on a file without an extension is a Rust panic,
modelled as an error result.
-/

/-- Byte index of the `.` starting the extension of a file name, following
`std::path::Path::extension`: the last `.`, unless it is the leading
character (`".gitignore"` and `"README"` have no extension). -/
def lastDotIdx (name : String) : Option Nat :=
  match ((List.range name.data.length).filter
      (fun i => name.data.getD i ' ' == '.')).getLast? with
  | none => none
  | some 0 => none
  | some i => some i

/-- `Path::extension`, as an optional string. -/
def rustExtension (name : String) : Option String :=
  match lastDotIdx name with
  | none => none
  | some i => some (String.mk (name.data.drop (i + 1)))

/-- `PathBuf::set_extension("")`: remove the extension (no-op when there is
none). -/
def stripExtension (name : String) : String :=
  match lastDotIdx name with
  | none => name
  | some i => String.mk (name.data.take i)

/-- An in-memory directory tree (model of the filesystem the walk visits). -/
inductive FsEntry where
  | file (name : String) (content : String)
  | dir (name : String) (entries : List FsEntry)

/-- Join path components with `/` (model of `PathBuf` joining and display for
relative component lists). -/
def pathComponents (l : List String) : String := String.intercalate "/" l

mutual

/-- One entry of the `copy_and_template_folder` walk: directories recurse,
`.tera` files are rendered under the stripped name, files with another
extension are copied byte for byte, and a file without an extension hits
`path.extension().unwrap()`, which fails. -/
def copyEntry (render : String → JValue → Except String String) (ctx : JValue)
    (srcDir dstDir : List String) : FsEntry → Except String (List (List String × String))
  | .dir name entries => copyEntries render ctx (srcDir ++ [name]) (dstDir ++ [name]) entries
  | .file name content =>
    match rustExtension name with
    | none => Except.error "called Option.unwrap on a None value"
    | some ext =>
      if ext = "tera" then
        match render (pathComponents (srcDir ++ [name])) ctx with
        | Except.error e => Except.error e
        | Except.ok contents => Except.ok [(dstDir ++ [stripExtension name], contents)]
      else
        Except.ok [(dstDir ++ [name], content)]

/-- The `for f in fs::read_dir(from_dir)` loop: stop at the first error. -/
def copyEntries (render : String → JValue → Except String String) (ctx : JValue)
    (srcDir dstDir : List String) : List FsEntry → Except String (List (List String × String))
  | [] => Except.ok []
  | e :: rest =>
    match copyEntry render ctx srcDir dstDir e with
    | Except.error err => Except.error err
    | Except.ok outs =>
      match copyEntries render ctx srcDir dstDir rest with
      | Except.error err => Except.error err
      | Except.ok outs2 => Except.ok (outs ++ outs2)

end

mutual

/-- Whether the tree contains, at any depth, a file whose name has no
extension. -/
def hasNoExtEntry : FsEntry → Bool
  | .file name _ => (rustExtension name).isNone
  | .dir _ entries => hasNoExtEntries entries

/-- `hasNoExtEntry` over a directory's entry list. -/
def hasNoExtEntries : List FsEntry → Bool
  | [] => false
  | e :: rest => hasNoExtEntry e || hasNoExtEntries rest

end

theorem copy_no_ext_fail_aux (n : Nat) :
    (∀ e : FsEntry, sizeOf e ≤ n → hasNoExtEntry e = true →
      ∀ (render : String → JValue → Except String String) (ctx : JValue)
        (srcDir dstDir : List String),
        (copyEntry render ctx srcDir dstDir e).isOk = false) ∧
    (∀ l : List FsEntry, sizeOf l ≤ n → hasNoExtEntries l = true →
      ∀ (render : String → JValue → Except String String) (ctx : JValue)
        (srcDir dstDir : List String),
        (copyEntries render ctx srcDir dstDir l).isOk = false) := by
  induction n with
  | zero =>
    constructor
    · intro e hle
      exfalso
      cases e <;> simp_arith at hle
    · intro l hle
      exfalso
      cases l <;> simp_arith at hle
  | succ n ih =>
    constructor
    · intro e hle hne render ctx srcDir dstDir
      cases e with
      | file name content =>
        simp only [hasNoExtEntry, Option.isNone_iff_eq_none] at hne
        simp [copyEntry, hne, Except.isOk, Except.toBool]
      | dir name entries =>
        simp only [hasNoExtEntry] at hne
        have hsz : sizeOf entries ≤ n := by
          simp_arith at hle
          omega
        simpa [copyEntry] using ih.2 entries hsz hne render ctx (srcDir ++ [name])
          (dstDir ++ [name])
    · intro l hle hne render ctx srcDir dstDir
      cases l with
      | nil => simp [hasNoExtEntries] at hne
      | cons e rest =>
        have hsze : sizeOf e ≤ n := by
          simp_arith at hle
          omega
        have hszr : sizeOf rest ≤ n := by
          simp_arith at hle
          omega
        simp only [hasNoExtEntries, Bool.or_eq_true] at hne
        cases hne with
        | inl h1 =>
          have := ih.1 e hsze h1 render ctx srcDir dstDir
          cases hcp : copyEntry render ctx srcDir dstDir e with
          | error err => simp [copyEntries, hcp, Except.isOk, Except.toBool]
          | ok outs => rw [hcp] at this; simp [Except.isOk, Except.toBool] at this
        | inr h2 =>
          have := ih.2 rest hszr h2 render ctx srcDir dstDir
          cases hcp : copyEntry render ctx srcDir dstDir e with
          | error err => simp [copyEntries, hcp, Except.isOk, Except.toBool]
          | ok outs =>
            cases hcr : copyEntries render ctx srcDir dstDir rest with
            | error err => simp [copyEntries, hcp, hcr, Except.isOk, Except.toBool]
            | ok outs2 => rw [hcr] at this; simp [Except.isOk, Except.toBool] at this

/-- C6: whenever the tree walked by `copy_and_template_folder` contains a
file whose name has no extension, the walk fails (returns no write list at
all: the file is neither rendered as a template nor silently copied).  In
the Rust code the failure is the `path.extension().unwrap()` panic, which
aborts the run. -/
theorem missing_extension_fatal (e : FsEntry) (h : hasNoExtEntry e = true)
    (render : String → JValue → Except String String) (ctx : JValue)
    (srcDir dstDir : List String) :
    (copyEntry render ctx srcDir dstDir e).isOk = false :=
  (copy_no_ext_fail_aux (sizeOf e)).1 e le_rfl h render ctx srcDir dstDir

/-- C6 witness: a directory holding `README` (no extension) next to a
renderable template makes the walk fail. -/
theorem missing_extension_fatal_witness :
    hasNoExtEntry (FsEntry.dir "app" [FsEntry.file "README" "hello",
      FsEntry.file "cfg.yaml.tera" "t"]) = true ∧
    (copyEntry (fun _ _ => Except.ok "rendered") (JValue.obj []) [] []
      (FsEntry.dir "app" [FsEntry.file "README" "hello",
        FsEntry.file "cfg.yaml.tera" "t"])).isOk = false := by
  have h1 : rustExtension "README" = none := by decide
  have h : hasNoExtEntry (FsEntry.dir "app" [FsEntry.file "README" "hello",
      FsEntry.file "cfg.yaml.tera" "t"]) = true := by
    simp [hasNoExtEntry, hasNoExtEntries, h1]
  exact ⟨h, missing_extension_fatal _ h (fun _ _ => Except.ok "rendered") (JValue.obj []) [] []⟩

/-! ## Data model (src/main.rs structs as used by src/processor.rs, and
src/app_project.rs)

`src/processor.rs` consumes `crate::{Config, Metadata, TemplateContext}`;
the struct fields below are the ones the processor reads/writes.  Rust
`HashSet` fields are duplicate-free lists built by `hsetInsert`.
-/

/-- `HashSet::insert`: a no-op when the value is already present. -/
def hsetInsert {α : Type} [DecidableEq α] (s : List α) (a : α) : List α :=
  if a ∈ s then s else s ++ [a]

/-- `AppProjectDestination` (src/app_project.rs). -/
structure AppProjectDestination where
  name : String
  «namespace» : String
  server : String
deriving DecidableEq

/-- `AppProjectClusterResourceWhitelist` (src/app_project.rs). -/
structure AppProjectClusterResourceWhitelist where
  group : String
  kind : String
deriving DecidableEq

/-- `AppProjectSpec` (src/app_project.rs); the three `HashSet` fields. -/
structure AppProjectSpec where
  destinations : List AppProjectDestination
  cluster_resource_whitelist : List AppProjectClusterResourceWhitelist
  source_repos : List String
deriving DecidableEq

/-- `AppProjectMetadata` (src/app_project.rs). -/
structure AppProjectMetadata where
  name : String
  «namespace» : String
deriving DecidableEq

/-- `AppProject` (src/app_project.rs). -/
structure AppProject where
  api_version : String
  kind : String
  metadata : AppProjectMetadata
  spec : AppProjectSpec
deriving DecidableEq

/-- `AppProject::new` (src/app_project.rs lines 44-60). -/
def AppProject.new (name «namespace» : String) : AppProject :=
  { api_version := "argoproj.io/v1alpha1"
    kind := "AppProject"
    metadata := { name := name, «namespace» := «namespace» }
    spec := { destinations := [], cluster_resource_whitelist := [], source_repos := [] } }

/-- `ArgoCDProject` (src/processor.rs lines 16-19): the per-project aggregate
plus the ordered list of rendered application manifests. -/
structure ArgoCDProject where
  project : AppProject
  applications : List String
deriving DecidableEq

/-- `ConfigTarget` as used by the processor (a named target). -/
structure ConfigTarget where
  name : String
deriving DecidableEq

/-- `Config` as used by the processor: template path, ArgoCD namespace and
source repo, target list, optional variable and default-option documents. -/
structure Config where
  application_template : String
  argocd_namespace : String
  argocd_source_repo : String
  targets : List ConfigTarget
  vars : Option JValue
  default_application_options : Option JValue

/-- `ProjectOptions` in metadata (additional namespaces and whitelist
entries, src/processor.rs lines 230-263). -/
structure ProjectOptions where
  additional_namespaces : Option (List String)
  cluster_resource_whitelist : Option (List AppProjectClusterResourceWhitelist)

/-- `MetadataTarget`: a target entry in a metadata file. -/
structure MetadataTarget where
  name : String
  vars : Option JValue

/-- `Metadata` as used by the processor. -/
structure Metadata where
  «namespace» : Option String
  script : Option String
  application_options : Option JValue
  project_options : Option ProjectOptions
  targets : List MetadataTarget

/-- `TemplateContext` as constructed in `template_context_for_dir`
(src/processor.rs lines 300-311). -/
structure TemplateContext where
  «namespace» : String
  normalized_project : String
  normalized_app_name : String
  project : String
  app_name : String
  path : String
  target_name : String
deriving DecidableEq

/-- `PathBuf::join` for a relative right operand, on displayed paths. -/
def pathJoin (a b : String) : String := a ++ "/" ++ b

/-- `default_serde_object` (src/processor.rs lines 397-399). -/
def default_serde_object : JValue := JValue.obj []

/-- `template_context_for_dir` (src/processor.rs lines 266-312): project and
application names from the folder shape `<...>/<project>/<application>`, the
namespace defaulted to the *sanitized* project name, and the output-relative
path `<target>/<project>/<application>` (raw names).  `app_dir` is the list
of path components of the metadata file's parent directory. -/
def template_context_for_dir (app_dir : List String) (target_name : String)
    (metadata : Metadata) : Except String TemplateContext :=
  match (app_dir.dropLast).getLast? with
  | none => Except.error "unable to determine project name from folder structure"
  | some project =>
    match app_dir.getLast? with
    | none => Except.error "unable to determine app name from folder structure"
    | some app_name =>
      Except.ok
        { «namespace» := metadata.«namespace».getD (sanitize_name project)
          normalized_project := sanitize_name project
          normalized_app_name := sanitize_name app_name
          project := project
          app_name := app_name
          path := pathJoin (pathJoin target_name project) app_name
          target_name := target_name }

/-- The serde serialization of `TemplateContext` (merged last over the
application options, src/processor.rs line 182). -/
def contextToJValue (c : TemplateContext) : JValue :=
  JValue.obj
    [("namespace", JValue.str c.«namespace»),
     ("normalized_project", JValue.str c.normalized_project),
     ("normalized_app_name", JValue.str c.normalized_app_name),
     ("project", JValue.str c.project),
     ("app_name", JValue.str c.app_name),
     ("path", JValue.str c.path),
     ("target_name", JValue.str c.target_name)]

/-- `generate_argo_application_for_dir` (src/processor.rs lines 165-185):
default application options, overlaid by the metadata's application options,
overlaid by the render context, rendered through the template engine
(abstracted as `render`). -/
def generate_argo_application_for_dir (cfg : Config)
    (render : String → JValue → Except String String)
    (metadata : Metadata) (app_context : TemplateContext) : Except String String :=
  let tc := cfg.default_application_options.getD default_serde_object
  let tc := merge tc (metadata.application_options.getD default_serde_object)
  let tc := merge tc (contextToJValue app_context)
  render cfg.application_template tc

/-- The fixed in-cluster server identifier (src/processor.rs line 220). -/
def inClusterServer : String := "https://kubernetes.devault.svc"

/-- The `AppProjectSpec` mutations of `create_or_update_app_project_for_dir`
(src/processor.rs lines 205-263): unconditionally insert the configured
source repo, the in-cluster destination for the application's namespace and
the `("", "Namespace")` whitelist entry; then insert every additional
namespace and whitelist entry of the metadata's project options. -/
def updatedSpec (cfg : Config) (metadata : Metadata) (app_context : TemplateContext)
    (spec0 : AppProjectSpec) : AppProjectSpec :=
  let spec1 := { spec0 with source_repos := hsetInsert spec0.source_repos cfg.argocd_source_repo }
  let spec2 := { spec1 with destinations := (hsetInsert spec1.destinations
      { name := "in-cluster", «namespace» := app_context.«namespace», server := inClusterServer }) }
  let spec3 := { spec2 with cluster_resource_whitelist :=
      (hsetInsert spec2.cluster_resource_whitelist { group := "", kind := "Namespace" }) }
  match metadata.project_options with
  | none => spec3
  | some options =>
    let specA :=
      match options.additional_namespaces with
      | none => spec3
      | some additional_namespaces =>
        { spec3 with destinations := (additional_namespaces.foldl
            (fun d n => hsetInsert d ⟨"in-cluster", n, inClusterServer⟩)
            spec3.destinations) }
    match options.cluster_resource_whitelist with
    | none => specA
    | some wl =>
      { specA with cluster_resource_whitelist :=
          (wl.foldl (fun c w => hsetInsert c w) specA.cluster_resource_whitelist) }

/-- The `or_insert` default (src/processor.rs lines 198-204): a fresh
`ArgoCDProject` with an empty application list. -/
def freshProject (cfg : Config) (app_context : TemplateContext) : ArgoCDProject :=
  { project := AppProject.new app_context.normalized_project cfg.argocd_namespace
    applications := [] }

/-- The spec mutations applied to the (existing or fresh) map entry; the
`applications` list is untouched. -/
def updateProject (cfg : Config) (metadata : Metadata) (app_context : TemplateContext)
    (p : ArgoCDProject) : ArgoCDProject :=
  { p with project :=
      { p.project with spec := (updatedSpec cfg metadata app_context p.project.spec) } }

/-- `create_or_update_app_project_for_dir` (src/processor.rs lines 187-264),
acting on one target's project map: `entry(normalized_project).or_insert`
a fresh `ArgoCDProject`, then mutate its spec sets in place. -/
def create_or_update_app_project_for_dir (cfg : Config) (metadata : Metadata)
    (app_context : TemplateContext) (pm : List (String × ArgoCDProject)) :
    List (String × ArgoCDProject) :=
  assocSet app_context.normalized_project
    (updateProject cfg metadata app_context
      ((assocGet app_context.normalized_project pm).getD (freshProject cfg app_context))) pm

/-! ## The processing pass (`ProjectProcessor::process`, src/processor.rs
lines 61-163)

State: the `targets` field, a map from target name to a map from project
name to `ArgoCDProject`.  Reading/parsing of metadata files is external
(inputs arrive as parsed `Metadata` plus the metadata file's parent
directory components); the tera engine, the folder copy's filesystem side
and the hook subprocess are the parameters `render`, `copyFolder` and
`runScript`. -/

/-- One target's project map. -/
abbrev ProjectMap := List (String × ArgoCDProject)

/-- The processor's `targets` field. -/
abbrev TargetsMap := List (String × ProjectMap)

/-- One discovered metadata file: its parent directory (the application
directory) and its parsed contents. -/
structure FileInput where
  app_dir : List String
  metadata : Metadata

/-- `std::process::Output`, reduced to what the code reads. -/
structure ScriptOutput where
  success : Bool
  stdout : String

/-- The fatal outcomes of one pass step. -/
inductive ProcErr where
  | layout (msg : String)
  | render (msg : String)
  | lookupPanic
  | copy (msg : String)
  | hook (stdout : String)
deriving DecidableEq

/-- `out_folder_path` (src/processor.rs line 107): the output path joined
with the context's output-relative path. -/
def out_folder_path (outputPath : String) (app_context : TemplateContext) : String :=
  pathJoin outputPath app_context.path

/-- The body of `for target in metadata.targets.iter()` (src/processor.rs
lines 85-144): skip unknown targets; compute the context; create/update the
project aggregate under the *sanitized* project name; render the
application manifest; look the aggregate back up under the *raw* project
name (`.get_mut(&app_context.project).unwrap()`, `ProcErr.lookupPanic` when
absent) and append the manifest; copy/render the application folder; then
run the hook script, whose non-zero exit is fatal with the captured
standard output. -/
def stepTarget (cfg : Config) (render : String → JValue → Except String String)
    (runScript : String → List String → String → ScriptOutput)
    (copyFolder : JValue → List String → String → Except String Unit)
    (outputPath : String) (f : FileInput) (tg : MetadataTarget) (s : TargetsMap) :
    Except ProcErr TargetsMap :=
  match assocGet tg.name s with
  | none => Except.ok s
  | some pm0 =>
    match template_context_for_dir f.app_dir tg.name f.metadata with
    | Except.error e => Except.error (ProcErr.layout e)
    | Except.ok app_context =>
      let pm1 := create_or_update_app_project_for_dir cfg f.metadata app_context pm0
      match generate_argo_application_for_dir cfg render f.metadata app_context with
      | Except.error e => Except.error (ProcErr.render e)
      | Except.ok argo_application =>
        match assocGet app_context.project pm1 with
        | none => Except.error ProcErr.lookupPanic
        | some target_project =>
          let pm2 := assocSet app_context.project
            { target_project with
              applications := target_project.applications ++ [argo_application] } pm1
          let s1 := assocSet tg.name pm2 s
          let target_vars := merge (cfg.vars.getD default_serde_object)
            (tg.vars.getD default_serde_object)
          match copyFolder target_vars f.app_dir (out_folder_path outputPath app_context) with
          | Except.error e => Except.error (ProcErr.copy e)
          | Except.ok _ =>
            match f.metadata.script with
            | some script =>
              let output := runScript script f.app_dir (out_folder_path outputPath app_context)
              if output.success then Except.ok s1
              else Except.error (ProcErr.hook output.stdout)
            | none => Except.ok s1

/-- The target loop for one metadata file. -/
def processTargets (cfg : Config) (render : String → JValue → Except String String)
    (runScript : String → List String → String → ScriptOutput)
    (copyFolder : JValue → List String → String → Except String Unit)
    (outputPath : String) (f : FileInput) :
    List MetadataTarget → TargetsMap → Except ProcErr TargetsMap
  | [], s => Except.ok s
  | tg :: rest, s =>
    match stepTarget cfg render runScript copyFolder outputPath f tg s with
    | Except.error e => Except.error e
    | Except.ok s2 => processTargets cfg render runScript copyFolder outputPath f rest s2

/-- Processing of one discovered metadata file. -/
def processFile (cfg : Config) (render : String → JValue → Except String String)
    (runScript : String → List String → String → ScriptOutput)
    (copyFolder : JValue → List String → String → Except String Unit)
    (outputPath : String) (f : FileInput) (s : TargetsMap) : Except ProcErr TargetsMap :=
  processTargets cfg render runScript copyFolder outputPath f f.metadata.targets s

/-- The `for metadata_file in glob(...)` loop, over the discovery order. -/
def processFiles (cfg : Config) (render : String → JValue → Except String String)
    (runScript : String → List String → String → ScriptOutput)
    (copyFolder : JValue → List String → String → Except String Unit)
    (outputPath : String) : List FileInput → TargetsMap → Except ProcErr TargetsMap
  | [], s => Except.ok s
  | f :: rest, s =>
    match processFile cfg render runScript copyFolder outputPath f s with
    | Except.error e => Except.error e
    | Except.ok s2 => processFiles cfg render runScript copyFolder outputPath rest s2

/-- The pre-pass loop (src/processor.rs lines 62-70): one empty project map
registered per configured target. -/
def initState (cfg : Config) : TargetsMap := cfg.targets.map (fun t => (t.name, []))

/-- The whole pass. -/
def processAll (cfg : Config) (render : String → JValue → Except String String)
    (runScript : String → List String → String → ScriptOutput)
    (copyFolder : JValue → List String → String → Except String Unit)
    (outputPath : String) (files : List FileInput) : Except ProcErr TargetsMap :=
  processFiles cfg render runScript copyFolder outputPath files (initState cfg)

/-- The serialization of one project output file (src/processor.rs lines
150-159): the serialized project object (`serde_yaml`, abstracted as
`yamlOf`) followed by each accumulated manifest, each preceded by the
document boundary `"\n---\n"`, in append order. -/
def project_output_file (yamlOf : AppProject → String) (p : ArgoCDProject) : String :=
  yamlOf p.project ++ String.join (p.applications.map (fun a => "\n---\n" ++ a))

deriving instance DecidableEq for Except

/-! ## C5: application output placement -/

/-- C5 (amended): the application's output directory is `outputPath` joined
*directly* with the RenderContext's path (src/processor.rs line 107), and
since that path is `<target>/<project>/<application>`, the copied/rendered
assets land under `<output-root>/<target>/<project>/<application>`. -/
theorem application_output_dir (outputPath : String) (app_dir : List String) (tn : String)
    (md : Metadata) (ctx : TemplateContext)
    (h : template_context_for_dir app_dir tn md = Except.ok ctx) :
    out_folder_path outputPath ctx
      = pathJoin (pathJoin (pathJoin outputPath ctx.target_name) ctx.project) ctx.app_name ∧
    ctx.target_name = tn := by
  unfold template_context_for_dir at h
  cases h1 : (app_dir.dropLast).getLast? with
  | none => rw [h1] at h; simp at h
  | some project =>
    rw [h1] at h
    cases h2 : app_dir.getLast? with
    | none => rw [h2] at h; simp at h
    | some app_name =>
      rw [h2] at h
      simp only [Except.ok.injEq] at h
      subst h
      refine ⟨?_, rfl⟩
      simp [out_folder_path, pathJoin, String.append_assoc]

def c5Metadata : Metadata :=
  { «namespace» := none, script := none, application_options := none,
    project_options := none, targets := [] }

def c5Context : TemplateContext :=
  { «namespace» := "shop", normalized_project := "shop", normalized_app_name := "api",
    project := "shop", app_name := "api", path := "prod/shop/api", target_name := "prod" }

/-- C5 (counterexample): the claim's first conjunct — output directory =
outputPath joined with the target name joined with the RenderContext's path
— is false on the code: the path already carries the target, so that reading
would double it (`out/prod/prod/shop/api`), while the code joins the output
root with the path directly and produces `out/prod/shop/api`. -/
theorem application_output_dir_counterexample :
    template_context_for_dir ["shop", "api"] "prod" c5Metadata = Except.ok c5Context ∧
    out_folder_path "out" c5Context = "out/prod/shop/api" ∧
    pathJoin (pathJoin "out" "prod") c5Context.path = "out/prod/prod/shop/api" ∧
    out_folder_path "out" c5Context ≠ pathJoin (pathJoin "out" "prod") c5Context.path := by
  refine ⟨?_, ?_, ?_, ?_⟩ <;> decide

/-- C5 witness: the amended placement at the same concrete input. -/
theorem application_output_dir_witness :
    out_folder_path "out" c5Context
      = pathJoin (pathJoin (pathJoin "out" c5Context.target_name) c5Context.project)
        c5Context.app_name ∧
    c5Context.target_name = "prod" :=
  application_output_dir "out" ["shop", "api"] "prod" c5Metadata c5Context (by decide)

/-! ## C4: the aggregate update key versus the manifest-append lookup key -/

def c4Config : Config :=
  { application_template := "application.yaml.tera", argocd_namespace := "argocd",
    argocd_source_repo := "https://example.com/repo.git", targets := [⟨"prod"⟩],
    vars := none, default_application_options := none }

def c4Metadata : Metadata :=
  { «namespace» := none, script := none, application_options := none,
    project_options := none, targets := [⟨"prod", none⟩] }

def c4File : FileInput := { app_dir := ["Shop", "api"], metadata := c4Metadata }

def c4Context : TemplateContext :=
  { «namespace» := "shop", normalized_project := "shop", normalized_app_name := "api",
    project := "Shop", app_name := "api", path := "prod/Shop/api", target_name := "prod" }

/-- C4 (code bug): `create_or_update_app_project_for_dir` keys the aggregate
by the *sanitized* project name, but the manifest-append lookup
`.get_mut(&app_context.project).unwrap()` uses the *raw* project name.  For a
project directory `Shop` (sanitized `shop`) the updated map holds the key
`shop` and no key `Shop`, so the lookup returns `None` and the unwrap
panics: the step fails instead of appending the manifest. -/
theorem raw_project_lookup_panics :
    template_context_for_dir ["Shop", "api"] "prod" c4File.metadata = Except.ok c4Context ∧
    assocGet "shop"
        (create_or_update_app_project_for_dir c4Config c4File.metadata c4Context []) ≠ none ∧
    assocGet "Shop"
        (create_or_update_app_project_for_dir c4Config c4File.metadata c4Context []) = none ∧
    stepTarget c4Config (fun _ _ => Except.ok "MANIFEST") (fun _ _ _ => ⟨true, ""⟩)
        (fun _ _ _ => Except.ok ()) "out" c4File ⟨"prod", none⟩ (initState c4Config)
      = Except.error ProcErr.lookupPanic := by
  refine ⟨?_, ?_, ?_, ?_⟩ <;> decide

/-! ## C7: set semantics of the aggregate insertions -/

theorem hsetInsert_mem_self {α : Type} [DecidableEq α] (s : List α) (a : α) :
    a ∈ hsetInsert s a := by
  unfold hsetInsert
  by_cases h : a ∈ s <;> simp [h]

theorem hsetInsert_mem_of_mem {α : Type} [DecidableEq α] {s : List α} {b : α} (a : α)
    (h : b ∈ s) : b ∈ hsetInsert s a := by
  unfold hsetInsert
  by_cases h2 : a ∈ s <;> simp [h2, h]

theorem hsetInsert_of_mem {α : Type} [DecidableEq α] {s : List α} {a : α} (h : a ∈ s) :
    hsetInsert s a = s := by
  simp [hsetInsert, h]

theorem hsetInsert_nodup {α : Type} [DecidableEq α] {s : List α} (a : α) (h : s.Nodup) :
    (hsetInsert s a).Nodup := by
  unfold hsetInsert
  by_cases h2 : a ∈ s
  · simp [h2, h]
  · simp [h2, List.nodup_append, h]

theorem foldl_hsetInsert_mem_base {α β : Type} [DecidableEq α] (f : β → α) :
    ∀ (l : List β) (s : List α) (x : α), x ∈ s →
      x ∈ l.foldl (fun acc y => hsetInsert acc (f y)) s := by
  intro l
  induction l with
  | nil => intro s x h; simpa using h
  | cons b t ih => intro s x h; exact ih _ x (hsetInsert_mem_of_mem _ h)

theorem foldl_hsetInsert_mem_elem {α β : Type} [DecidableEq α] (f : β → α) :
    ∀ (l : List β) (s : List α) (y : β), y ∈ l →
      f y ∈ l.foldl (fun acc y => hsetInsert acc (f y)) s := by
  intro l
  induction l with
  | nil => intro s y h; simp at h
  | cons b t ih =>
    intro s y h
    rcases List.mem_cons.mp h with h1 | h2
    · subst h1
      exact foldl_hsetInsert_mem_base f t _ _ (hsetInsert_mem_self _ _)
    · exact ih _ y h2

theorem foldl_hsetInsert_of_mem {α β : Type} [DecidableEq α] (f : β → α) :
    ∀ (l : List β) (s : List α), (∀ y ∈ l, f y ∈ s) →
      l.foldl (fun acc y => hsetInsert acc (f y)) s = s := by
  intro l
  induction l with
  | nil => intro s _; rfl
  | cons b t ih =>
    intro s h
    have hb : f b ∈ s := h b (by simp)
    simp only [List.foldl_cons, hsetInsert_of_mem hb]
    exact ih s (fun y hy => h y (by simp [hy]))

theorem foldl_hsetInsert_nodup {α β : Type} [DecidableEq α] (f : β → α) :
    ∀ (l : List β) (s : List α), s.Nodup →
      (l.foldl (fun acc y => hsetInsert acc (f y)) s).Nodup := by
  intro l
  induction l with
  | nil => intro s h; simpa using h
  | cons b t ih => intro s h; exact ih _ (hsetInsert_nodup _ h)

/-- The destination insertions driven by the metadata's project options. -/
def destOptionsUpd (metadata : Metadata) (d : List AppProjectDestination) :
    List AppProjectDestination :=
  match metadata.project_options with
  | none => d
  | some options =>
    match options.additional_namespaces with
    | none => d
    | some additional_namespaces =>
      additional_namespaces.foldl (fun acc n => hsetInsert acc ⟨"in-cluster", n, inClusterServer⟩) d

/-- The whitelist insertions driven by the metadata's project options. -/
def wlOptionsUpd (metadata : Metadata) (c : List AppProjectClusterResourceWhitelist) :
    List AppProjectClusterResourceWhitelist :=
  match metadata.project_options with
  | none => c
  | some options =>
    match options.cluster_resource_whitelist with
    | none => c
    | some wl => wl.foldl (fun acc w => hsetInsert acc w) c

theorem updatedSpec_fields (cfg : Config) (md : Metadata) (ctx : TemplateContext)
    (s : AppProjectSpec) :
    (updatedSpec cfg md ctx s).source_repos = hsetInsert s.source_repos cfg.argocd_source_repo ∧
    (updatedSpec cfg md ctx s).destinations
      = destOptionsUpd md
        (hsetInsert s.destinations ⟨"in-cluster", ctx.«namespace», inClusterServer⟩) ∧
    (updatedSpec cfg md ctx s).cluster_resource_whitelist
      = wlOptionsUpd md (hsetInsert s.cluster_resource_whitelist ⟨"", "Namespace"⟩) := by
  unfold updatedSpec destOptionsUpd wlOptionsUpd
  cases md.project_options with
  | none => simp
  | some options =>
    obtain ⟨ans, wl⟩ := options
    cases ans <;> cases wl <;> simp

theorem destOptionsUpd_mem_of_mem (md : Metadata) {d : List AppProjectDestination}
    {x : AppProjectDestination} (h : x ∈ d) : x ∈ destOptionsUpd md d := by
  obtain ⟨mns, msc, mao, mpo, mtg⟩ := md
  unfold destOptionsUpd
  cases mpo with
  | none => simpa using h
  | some options =>
    obtain ⟨ans, wl⟩ := options
    cases ans with
    | none => simpa using h
    | some ns => simpa using foldl_hsetInsert_mem_base _ ns d x h

theorem wlOptionsUpd_mem_of_mem (md : Metadata) {c : List AppProjectClusterResourceWhitelist}
    {x : AppProjectClusterResourceWhitelist} (h : x ∈ c) : x ∈ wlOptionsUpd md c := by
  obtain ⟨mns, msc, mao, mpo, mtg⟩ := md
  unfold wlOptionsUpd
  cases mpo with
  | none => simpa using h
  | some options =>
    obtain ⟨ans, wl⟩ := options
    cases wl with
    | none => simpa using h
    | some wle => simpa using foldl_hsetInsert_mem_base _ wle c x h

theorem destOptionsUpd_idem (md : Metadata) (d : List AppProjectDestination) :
    destOptionsUpd md (destOptionsUpd md d) = destOptionsUpd md d := by
  obtain ⟨mns, msc, mao, mpo, mtg⟩ := md
  unfold destOptionsUpd
  cases mpo with
  | none => simp
  | some options =>
    obtain ⟨ans, wl⟩ := options
    cases ans with
    | none => simp
    | some ns =>
      simpa using foldl_hsetInsert_of_mem _ ns _
        (fun y hy => foldl_hsetInsert_mem_elem _ ns d y hy)

theorem wlOptionsUpd_idem (md : Metadata) (c : List AppProjectClusterResourceWhitelist) :
    wlOptionsUpd md (wlOptionsUpd md c) = wlOptionsUpd md c := by
  obtain ⟨mns, msc, mao, mpo, mtg⟩ := md
  unfold wlOptionsUpd
  cases mpo with
  | none => simp
  | some options =>
    obtain ⟨ans, wl⟩ := options
    cases wl with
    | none => simp
    | some wle =>
      simpa using foldl_hsetInsert_of_mem _ wle _
        (fun y hy => foldl_hsetInsert_mem_elem _ wle c y hy)

theorem destOptionsUpd_nodup (md : Metadata) {d : List AppProjectDestination}
    (h : d.Nodup) : (destOptionsUpd md d).Nodup := by
  obtain ⟨mns, msc, mao, mpo, mtg⟩ := md
  unfold destOptionsUpd
  cases mpo with
  | none => simpa using h
  | some options =>
    obtain ⟨ans, wl⟩ := options
    cases ans with
    | none => simpa using h
    | some ns => simpa using foldl_hsetInsert_nodup _ ns d h

theorem wlOptionsUpd_nodup (md : Metadata) {c : List AppProjectClusterResourceWhitelist}
    (h : c.Nodup) : (wlOptionsUpd md c).Nodup := by
  obtain ⟨mns, msc, mao, mpo, mtg⟩ := md
  unfold wlOptionsUpd
  cases mpo with
  | none => simpa using h
  | some options =>
    obtain ⟨ans, wl⟩ := options
    cases wl with
    | none => simpa using h
    | some wle => simpa using foldl_hsetInsert_nodup _ wle c h

theorem appProjectSpec_eq {a b : AppProjectSpec} (h1 : a.destinations = b.destinations)
    (h2 : a.cluster_resource_whitelist = b.cluster_resource_whitelist)
    (h3 : a.source_repos = b.source_repos) : a = b := by
  cases a
  cases b
  simp_all

theorem updatedSpec_idem (cfg : Config) (md : Metadata) (ctx : TemplateContext)
    (s : AppProjectSpec) :
    updatedSpec cfg md ctx (updatedSpec cfg md ctx s) = updatedSpec cfg md ctx s := by
  obtain ⟨h1, h2, h3⟩ := updatedSpec_fields cfg md ctx (updatedSpec cfg md ctx s)
  obtain ⟨g1, g2, g3⟩ := updatedSpec_fields cfg md ctx s
  refine appProjectSpec_eq ?_ ?_ ?_
  · rw [h2, g2]
    have hd0 : (⟨"in-cluster", ctx.«namespace», inClusterServer⟩ : AppProjectDestination)
        ∈ destOptionsUpd md
          (hsetInsert s.destinations ⟨"in-cluster", ctx.«namespace», inClusterServer⟩) :=
      destOptionsUpd_mem_of_mem md (hsetInsert_mem_self _ _)
    rw [hsetInsert_of_mem hd0, destOptionsUpd_idem]
  · rw [h3, g3]
    have hw0 : (⟨"", "Namespace"⟩ : AppProjectClusterResourceWhitelist)
        ∈ wlOptionsUpd md (hsetInsert s.cluster_resource_whitelist ⟨"", "Namespace"⟩) :=
      wlOptionsUpd_mem_of_mem md (hsetInsert_mem_self _ _)
    rw [hsetInsert_of_mem hw0, wlOptionsUpd_idem]
  · rw [h1, g1]
    rw [hsetInsert_of_mem (hsetInsert_mem_self s.source_repos cfg.argocd_source_repo)]

theorem updateProject_idem (cfg : Config) (md : Metadata) (ctx : TemplateContext)
    (p : ArgoCDProject) :
    updateProject cfg md ctx (updateProject cfg md ctx p) = updateProject cfg md ctx p := by
  unfold updateProject
  simp [updatedSpec_idem]

theorem assocSet_assocSet {α : Type} (k : String) (v v2 : α) :
    ∀ m : List (String × α), assocSet k v (assocSet k v2 m) = assocSet k v m := by
  intro m
  induction m with
  | nil => simp [assocSet]
  | cons kv rest ih =>
    obtain ⟨k2, w⟩ := kv
    by_cases h : k2 = k
    · simp [assocSet, h]
    · simp [assocSet, h, ih]

theorem assocGet_set_cases {α : Type} {k p : String} {v w : α} :
    ∀ {m : List (String × α)}, assocGet p (assocSet k v m) = some w →
      w = v ∨ assocGet p m = some w := by
  intro m h
  by_cases hk : k = p
  · subst hk
    rw [assocGet_set_self] at h
    exact Or.inl (by injection h with h2; exact h2.symm)
  · rw [assocGet_set_ne hk] at h
    exact Or.inr h

theorem create_or_update_idem (cfg : Config) (md : Metadata) (ctx : TemplateContext)
    (pm : ProjectMap) :
    create_or_update_app_project_for_dir cfg md ctx
        (create_or_update_app_project_for_dir cfg md ctx pm)
      = create_or_update_app_project_for_dir cfg md ctx pm := by
  unfold create_or_update_app_project_for_dir
  rw [assocGet_set_self]
  simp only [Option.getD_some]
  rw [updateProject_idem]
  exact assocSet_assocSet _ _ _ pm

/-- The three aggregate set fields hold no duplicates. -/
def SpecNodup (p : ArgoCDProject) : Prop :=
  p.project.spec.source_repos.Nodup ∧ p.project.spec.destinations.Nodup ∧
    p.project.spec.cluster_resource_whitelist.Nodup

theorem updateProject_nodup (cfg : Config) (md : Metadata) (ctx : TemplateContext)
    {p : ArgoCDProject} (h : SpecNodup p) : SpecNodup (updateProject cfg md ctx p) := by
  obtain ⟨n1, n2, n3⟩ := h
  obtain ⟨f1, f2, f3⟩ := updatedSpec_fields cfg md ctx p.project.spec
  refine ⟨?_, ?_, ?_⟩
  · show (updatedSpec cfg md ctx p.project.spec).source_repos.Nodup
    rw [f1]
    exact hsetInsert_nodup _ n1
  · show (updatedSpec cfg md ctx p.project.spec).destinations.Nodup
    rw [f2]
    exact destOptionsUpd_nodup md (hsetInsert_nodup _ n2)
  · show (updatedSpec cfg md ctx p.project.spec).cluster_resource_whitelist.Nodup
    rw [f3]
    exact wlOptionsUpd_nodup md (hsetInsert_nodup _ n3)

/-- C7: applying `create_or_update_app_project_for_dir` a second time with
the same inputs changes nothing (every `HashSet` insertion of an
already-present source repo, destination or whitelist entry is a no-op), and
when every aggregate in the map has duplicate-free set fields, so does every
aggregate after the update — the three fields never accumulate duplicates,
however many applications of the same project contribute the same entries. -/
theorem aggregate_insert_idempotent (cfg : Config) (md : Metadata) (ctx : TemplateContext)
    (pm : ProjectMap) (hnd : ∀ p proj, assocGet p pm = some proj → SpecNodup proj) :
    create_or_update_app_project_for_dir cfg md ctx
        (create_or_update_app_project_for_dir cfg md ctx pm)
      = create_or_update_app_project_for_dir cfg md ctx pm ∧
    ∀ p proj, assocGet p (create_or_update_app_project_for_dir cfg md ctx pm) = some proj →
      SpecNodup proj := by
  refine ⟨create_or_update_idem cfg md ctx pm, ?_⟩
  intro p proj h
  unfold create_or_update_app_project_for_dir at h
  rcases assocGet_set_cases h with h1 | h2
  · subst h1
    apply updateProject_nodup
    cases hget : assocGet ctx.normalized_project pm with
    | none =>
      simp only [Option.getD_none]
      exact ⟨by simp [freshProject, AppProject.new], by simp [freshProject, AppProject.new],
        by simp [freshProject, AppProject.new]⟩
    | some q =>
      simp only [Option.getD_some]
      exact hnd _ q hget
  · exact hnd _ _ h2

def c7Metadata : Metadata :=
  { «namespace» := none, script := none, application_options := none,
    project_options := some ⟨some ["extra", "extra"], some [⟨"apps", "Deployment"⟩]⟩,
    targets := [] }

/-- C7 witness: double update on the empty map, with project options that
repeat a namespace. -/
theorem aggregate_insert_idempotent_witness :
    create_or_update_app_project_for_dir c4Config c7Metadata c5Context
        (create_or_update_app_project_for_dir c4Config c7Metadata c5Context [])
      = create_or_update_app_project_for_dir c4Config c7Metadata c5Context [] ∧
    ∀ p proj, assocGet p (create_or_update_app_project_for_dir c4Config c7Metadata c5Context [])
        = some proj → SpecNodup proj :=
  aggregate_insert_idempotent c4Config c7Metadata c5Context []
    (fun p proj h => by simp [assocGet] at h)

/-! ## C3: manifest append order across the pass -/

/-- Whether a target name is configured (equals membership of the state's
outer key set, which the pass never changes). -/
def cfgKnows (cfg : Config) (n : String) : Bool := cfg.targets.any (fun t => t.name == n)

/-- One project's applications list inside a project map (`[]` when the
project has no entry). -/
def appsPm (pm : ProjectMap) (p : String) : List String :=
  ((assocGet p pm).map ArgoCDProject.applications).getD []

/-- The applications list accumulated for (target, project). -/
def appsOf (s : TargetsMap) (t p : String) : List String :=
  (((assocGet t s).bind (assocGet p)).map ArgoCDProject.applications).getD []

/-- The manifest that one (metadata file, target entry) event contributes to
the (t, p) aggregate: its rendered application manifest, exactly when the
entry names the configured target `t` and the file's raw project name is
`p`. -/
def eventContribution (cfg : Config) (render : String → JValue → Except String String)
    (f : FileInput) (tg : MetadataTarget) (t p : String) : List String :=
  if tg.name == t && cfgKnows cfg tg.name then
    match template_context_for_dir f.app_dir tg.name f.metadata with
    | Except.error _ => []
    | Except.ok ctx =>
      if ctx.project == p then
        match generate_argo_application_for_dir cfg render f.metadata ctx with
        | Except.ok m => [m]
        | Except.error _ => []
      else []
  else []

/-- All manifests contributed to (t, p), in metadata-file discovery order
(outer) and target-entry order (inner). -/
def manifestsInDiscoveryOrder (cfg : Config) (render : String → JValue → Except String String)
    (files : List FileInput) (t p : String) : List String :=
  files.flatMap (fun f =>
    f.metadata.targets.flatMap (fun tg => eventContribution cfg render f tg t p))

theorem updateProject_applications (cfg : Config) (md : Metadata) (ctx : TemplateContext)
    (p : ArgoCDProject) : (updateProject cfg md ctx p).applications = p.applications := rfl

theorem appsPm_create (cfg : Config) (md : Metadata) (ctx : TemplateContext)
    (pm : ProjectMap) (p : String) :
    appsPm (create_or_update_app_project_for_dir cfg md ctx pm) p = appsPm pm p := by
  unfold create_or_update_app_project_for_dir appsPm
  by_cases hp : ctx.normalized_project = p
  · subst hp
    rw [assocGet_set_self]
    cases hget : assocGet ctx.normalized_project pm with
    | none => simp [updateProject_applications, freshProject]
    | some q => simp [updateProject_applications]
  · rw [assocGet_set_ne hp]

theorem appsPm_push (pm : ProjectMap) (k : String) (proj : ArgoCDProject) (m : String)
    (hproj : assocGet k pm = some proj) (p : String) :
    appsPm (assocSet k { proj with applications := proj.applications ++ [m] } pm) p
      = appsPm pm p ++ (if k = p then [m] else []) := by
  unfold appsPm
  by_cases hp : k = p
  · subst hp
    rw [assocGet_set_self, hproj]
    simp
  · rw [assocGet_set_ne hp]
    simp [hp]

theorem appsOf_set_target (s : TargetsMap) (tn : String) (pm : ProjectMap) (t p : String) :
    appsOf (assocSet tn pm s) t p = if tn = t then appsPm pm p else appsOf s t p := by
  unfold appsOf appsPm
  by_cases ht : tn = t
  · subst ht
    rw [assocGet_set_self]
    simp [Option.bind]
  · rw [assocGet_set_ne ht]
    simp [ht]

theorem stepTarget_apps (cfg : Config) (render : String → JValue → Except String String)
    (runScript : String → List String → String → ScriptOutput)
    (copyFolder : JValue → List String → String → Except String Unit)
    (outputPath : String) (f : FileInput) (tg : MetadataTarget) (s s2 : TargetsMap)
    (hdom : ∀ n, (assocGet n s).isSome = cfgKnows cfg n)
    (h : stepTarget cfg render runScript copyFolder outputPath f tg s = Except.ok s2) :
    (∀ n, (assocGet n s2).isSome = cfgKnows cfg n) ∧
    ∀ t p, appsOf s2 t p = appsOf s t p ++ eventContribution cfg render f tg t p := by
  unfold stepTarget at h
  cases hk : assocGet tg.name s with
  | none =>
    rw [hk] at h
    simp only [Except.ok.injEq] at h
    subst h
    refine ⟨hdom, ?_⟩
    intro t p
    have hknow : cfgKnows cfg tg.name = false := by
      rw [← hdom tg.name, hk]
      rfl
    simp [eventContribution, hknow]
  | some pm0 =>
    rw [hk] at h
    dsimp only at h
    have hknow : cfgKnows cfg tg.name = true := by
      rw [← hdom tg.name, hk]
      rfl
    cases hctx : template_context_for_dir f.app_dir tg.name f.metadata with
    | error e => rw [hctx] at h; simp at h
    | ok ctx =>
      rw [hctx] at h
      dsimp only at h
      cases hgen : generate_argo_application_for_dir cfg render f.metadata ctx with
      | error e => rw [hgen] at h; simp at h
      | ok manifest =>
        rw [hgen] at h
        dsimp only at h
        cases hlk : assocGet ctx.project
            (create_or_update_app_project_for_dir cfg f.metadata ctx pm0) with
        | none => rw [hlk] at h; simp at h
        | some target_project =>
          rw [hlk] at h
          dsimp only at h
          cases hcp : copyFolder
              (merge (cfg.vars.getD default_serde_object) (tg.vars.getD default_serde_object))
              f.app_dir (out_folder_path outputPath ctx) with
          | error e => rw [hcp] at h; simp at h
          | ok u =>
            rw [hcp] at h
            dsimp only at h
            have hs2 : s2 = assocSet tg.name
                (assocSet ctx.project
                  { target_project with
                    applications := target_project.applications ++ [manifest] }
                  (create_or_update_app_project_for_dir cfg f.metadata ctx pm0)) s := by
              cases hsc : f.metadata.script with
              | none =>
                rw [hsc] at h
                simp only [Except.ok.injEq] at h
                exact h.symm
              | some script =>
                rw [hsc] at h
                dsimp only at h
                by_cases hsucc : (runScript script f.app_dir
                    (out_folder_path outputPath ctx)).success
                · rw [if_pos hsucc] at h
                  simp only [Except.ok.injEq] at h
                  exact h.symm
                · rw [if_neg hsucc] at h
                  simp at h
            subst hs2
            constructor
            · intro n
              by_cases hn : tg.name = n
              · subst hn
                rw [assocGet_set_self]
                simpa using hknow.symm
              · rw [assocGet_set_ne hn]
                exact hdom n
            · intro t p
              rw [appsOf_set_target]
              by_cases ht : tg.name = t
              · subst ht
                rw [if_pos rfl]
                rw [appsPm_push _ _ _ _ hlk, appsPm_create]
                have h1 : appsOf s tg.name p = appsPm pm0 p := by
                  unfold appsOf appsPm
                  rw [hk]
                  simp [Option.bind]
                rw [h1]
                have h2 : eventContribution cfg render f tg tg.name p
                    = if ctx.project = p then [manifest] else [] := by
                  by_cases hpp : ctx.project = p
                  · simp [eventContribution, hctx, hknow, hgen, hpp]
                  · simp [eventContribution, hctx, hknow, hgen, hpp]
                rw [h2]
              · rw [if_neg ht]
                have h2 : eventContribution cfg render f tg t p = [] := by
                  unfold eventContribution
                  have : (tg.name == t) = false := by
                    simp [ht]
                  simp [this]
                rw [h2, List.append_nil]

theorem processTargets_apps (cfg : Config) (render : String → JValue → Except String String)
    (runScript : String → List String → String → ScriptOutput)
    (copyFolder : JValue → List String → String → Except String Unit)
    (outputPath : String) (f : FileInput) :
    ∀ (tgs : List MetadataTarget) (s s2 : TargetsMap),
      (∀ n, (assocGet n s).isSome = cfgKnows cfg n) →
      processTargets cfg render runScript copyFolder outputPath f tgs s = Except.ok s2 →
      (∀ n, (assocGet n s2).isSome = cfgKnows cfg n) ∧
      ∀ t p, appsOf s2 t p = appsOf s t p
        ++ tgs.flatMap (fun tg => eventContribution cfg render f tg t p) := by
  intro tgs
  induction tgs with
  | nil =>
    intro s s2 hdom h
    simp only [processTargets, Except.ok.injEq] at h
    subst h
    exact ⟨hdom, by simp⟩
  | cons tg rest ih =>
    intro s s2 hdom h
    unfold processTargets at h
    cases hst : stepTarget cfg render runScript copyFolder outputPath f tg s with
    | error e => rw [hst] at h; simp at h
    | ok smid =>
      rw [hst] at h
      obtain ⟨hdom1, heq1⟩ := stepTarget_apps cfg render runScript copyFolder outputPath
        f tg s smid hdom hst
      obtain ⟨hdom2, heq2⟩ := ih smid s2 hdom1 h
      refine ⟨hdom2, ?_⟩
      intro t p
      rw [heq2 t p, heq1 t p]
      simp [List.append_assoc]

theorem processFiles_apps (cfg : Config) (render : String → JValue → Except String String)
    (runScript : String → List String → String → ScriptOutput)
    (copyFolder : JValue → List String → String → Except String Unit)
    (outputPath : String) :
    ∀ (files : List FileInput) (s s2 : TargetsMap),
      (∀ n, (assocGet n s).isSome = cfgKnows cfg n) →
      processFiles cfg render runScript copyFolder outputPath files s = Except.ok s2 →
      (∀ n, (assocGet n s2).isSome = cfgKnows cfg n) ∧
      ∀ t p, appsOf s2 t p = appsOf s t p
        ++ files.flatMap (fun f =>
          f.metadata.targets.flatMap (fun tg => eventContribution cfg render f tg t p)) := by
  intro files
  induction files with
  | nil =>
    intro s s2 hdom h
    simp only [processFiles, Except.ok.injEq] at h
    subst h
    exact ⟨hdom, by simp⟩
  | cons f rest ih =>
    intro s s2 hdom h
    unfold processFiles at h
    cases hpf : processFile cfg render runScript copyFolder outputPath f s with
    | error e => rw [hpf] at h; simp at h
    | ok smid =>
      rw [hpf] at h
      obtain ⟨hdom1, heq1⟩ := processTargets_apps cfg render runScript copyFolder outputPath
        f f.metadata.targets s smid hdom hpf
      obtain ⟨hdom2, heq2⟩ := ih smid s2 hdom1 h
      refine ⟨hdom2, ?_⟩
      intro t p
      rw [heq2 t p, heq1 t p]
      simp [List.append_assoc]

theorem initState_dom (cfg : Config) :
    ∀ n, (assocGet n (initState cfg)).isSome = cfgKnows cfg n := by
  intro n
  unfold initState cfgKnows
  induction cfg.targets with
  | nil => simp [assocGet]
  | cons tgt rest ih =>
    by_cases h : tgt.name = n
    · simp [assocGet, h]
    · simp only [List.map_cons, List.any_cons]
      rw [show (assocGet n ((tgt.name, ([] : ProjectMap)) :: rest.map
          (fun t => (t.name, ([] : ProjectMap))))) = assocGet n (rest.map
          (fun t => (t.name, ([] : ProjectMap)))) by simp [assocGet, h]]
      rw [ih]
      simp [h]

theorem initState_values_aux (t : String) :
    ∀ (l : List ConfigTarget) {pm : ProjectMap},
      assocGet t (l.map (fun tg => (tg.name, ([] : ProjectMap)))) = some pm → pm = [] := by
  intro l
  induction l with
  | nil => intro pm h; simp [assocGet] at h
  | cons tgt rest ih =>
    intro pm h
    by_cases ht : tgt.name = t
    · simp [assocGet, ht] at h
      exact h
    · simp only [List.map_cons] at h
      rw [show (assocGet t ((tgt.name, ([] : ProjectMap)) :: rest.map
          (fun tg => (tg.name, ([] : ProjectMap))))) = assocGet t (rest.map
          (fun tg => (tg.name, ([] : ProjectMap)))) from by simp [assocGet, ht]] at h
      exact ih h

theorem initState_values (cfg : Config) (t : String) {pm : ProjectMap}
    (h : assocGet t (initState cfg) = some pm) : pm = [] :=
  initState_values_aux t cfg.targets h

theorem appsOf_init (cfg : Config) (t p : String) : appsOf (initState cfg) t p = [] := by
  unfold appsOf
  cases h : assocGet t (initState cfg) with
  | none => rfl
  | some pm =>
    rw [initState_values cfg t h]
    rfl

/-- C3: on a successful pass, the applications list of every (target,
project) aggregate is exactly the list of that project's rendered manifests
in the order their metadata files were discovered (files outer, target
entries inner), and the serialized project output file lists them in that
same order after the serialized project object.  The list is a function of
the input sequence alone — in particular it does not depend on the
aggregate's unordered set contents, and re-running the same pass reproduces
it exactly. -/
theorem manifest_append_order (cfg : Config) (render : String → JValue → Except String String)
    (runScript : String → List String → String → ScriptOutput)
    (copyFolder : JValue → List String → String → Except String Unit)
    (outputPath : String) (files : List FileInput) (sfin : TargetsMap) (t p : String)
    (pm : ProjectMap) (proj : ArgoCDProject) (yamlOf : AppProject → String)
    (h : processAll cfg render runScript copyFolder outputPath files = Except.ok sfin)
    (hpm : assocGet t sfin = some pm) (hproj : assocGet p pm = some proj) :
    proj.applications = manifestsInDiscoveryOrder cfg render files t p ∧
    project_output_file yamlOf proj
      = yamlOf proj.project
        ++ String.join ((manifestsInDiscoveryOrder cfg render files t p).map
          (fun a => "\n---\n" ++ a)) := by
  obtain ⟨_, heq⟩ := processFiles_apps cfg render runScript copyFolder outputPath files
    (initState cfg) sfin (initState_dom cfg) h
  have h1 : appsOf sfin t p = manifestsInDiscoveryOrder cfg render files t p := by
    rw [heq t p, appsOf_init]
    rfl
  have h2 : appsOf sfin t p = proj.applications := by
    unfold appsOf
    rw [hpm]
    rw [show (some pm).bind (assocGet p) = assocGet p pm from rfl, hproj]
    rfl
  refine ⟨h2.symm.trans h1, ?_⟩
  unfold project_output_file
  rw [h2.symm.trans h1]

def c3Config : Config :=
  { application_template := "application.yaml.tera", argocd_namespace := "argocd",
    argocd_source_repo := "https://example.com/repo.git", targets := [⟨"prod"⟩],
    vars := none, default_application_options := none }

def c3Metadata : Metadata :=
  { «namespace» := none, script := none, application_options := none,
    project_options := none, targets := [⟨"prod", none⟩] }

def c3File : FileInput := { app_dir := ["shop", "api"], metadata := c3Metadata }

def c3render : String → JValue → Except String String := fun _ _ => Except.ok "MANIFEST"

def c3run : String → List String → String → ScriptOutput := fun _ _ _ => ⟨true, ""⟩

def c3copy : JValue → List String → String → Except String Unit := fun _ _ _ => Except.ok ()

def c3proj : ArgoCDProject :=
  { project :=
      { api_version := "argoproj.io/v1alpha1", kind := "AppProject",
        metadata := { name := "shop", «namespace» := "argocd" },
        spec :=
          { destinations := [⟨"in-cluster", "shop", inClusterServer⟩],
            cluster_resource_whitelist := [⟨"", "Namespace"⟩],
            source_repos := ["https://example.com/repo.git"] } },
    applications := ["MANIFEST"] }

def c3sfin : TargetsMap := [("prod", [("shop", c3proj)])]

/-- C3 witness: one target, one application, one manifest. -/
theorem manifest_append_order_witness :
    c3proj.applications = manifestsInDiscoveryOrder c3Config c3render [c3File] "prod" "shop" ∧
    project_output_file (fun _ => "PROJYAML") c3proj
      = "PROJYAML" ++ String.join ((manifestsInDiscoveryOrder c3Config c3render [c3File]
          "prod" "shop").map (fun a => "\n---\n" ++ a)) :=
  manifest_append_order c3Config c3render c3run c3copy "out" [c3File] c3sfin "prod" "shop"
    [("shop", c3proj)] c3proj (fun _ => "PROJYAML") (by decide) (by decide) (by decide)

/-! ## C8: a failing hook aborts the whole run -/

theorem processTargets_append_ok (cfg : Config)
    (render : String → JValue → Except String String)
    (runScript : String → List String → String → ScriptOutput)
    (copyFolder : JValue → List String → String → Except String Unit)
    (outputPath : String) (f : FileInput) :
    ∀ (l1 l2 : List MetadataTarget) (s s2 : TargetsMap),
      processTargets cfg render runScript copyFolder outputPath f l1 s = Except.ok s2 →
      processTargets cfg render runScript copyFolder outputPath f (l1 ++ l2) s
        = processTargets cfg render runScript copyFolder outputPath f l2 s2 := by
  intro l1
  induction l1 with
  | nil =>
    intro l2 s s2 h
    simp only [processTargets, Except.ok.injEq] at h
    subst h
    rfl
  | cons tg rest ih =>
    intro l2 s s2 h
    simp only [processTargets] at h
    rw [List.cons_append]
    simp only [processTargets]
    cases hst : stepTarget cfg render runScript copyFolder outputPath f tg s with
    | error e => rw [hst] at h; simp at h
    | ok smid =>
      rw [hst] at h
      dsimp only at h
      dsimp only
      exact ih l2 smid s2 h

theorem processFiles_append_ok (cfg : Config)
    (render : String → JValue → Except String String)
    (runScript : String → List String → String → ScriptOutput)
    (copyFolder : JValue → List String → String → Except String Unit)
    (outputPath : String) :
    ∀ (l1 l2 : List FileInput) (s s2 : TargetsMap),
      processFiles cfg render runScript copyFolder outputPath l1 s = Except.ok s2 →
      processFiles cfg render runScript copyFolder outputPath (l1 ++ l2) s
        = processFiles cfg render runScript copyFolder outputPath l2 s2 := by
  intro l1
  induction l1 with
  | nil =>
    intro l2 s s2 h
    simp only [processFiles, Except.ok.injEq] at h
    subst h
    rfl
  | cons f rest ih =>
    intro l2 s s2 h
    simp only [processFiles] at h
    rw [List.cons_append]
    simp only [processFiles]
    cases hpf : processFile cfg render runScript copyFolder outputPath f s with
    | error e => rw [hpf] at h; simp at h
    | ok smid =>
      rw [hpf] at h
      dsimp only at h
      dsimp only
      exact ih l2 smid s2 h

/-- C8: when a metadata file declares a hook script and, after the earlier
files and the earlier target entries of this file processed successfully
(and the step's own context/render/lookup/copy stages succeeded), the
spawned subprocess reports a non-zero status, then the whole pass over
`pre ++ f :: post` fails with the hook error carrying the captured standard
output — whatever `post` and the remaining target entries hold, so no
further targets or metadata files are processed. -/
theorem hook_failure_aborts_run (cfg : Config)
    (render : String → JValue → Except String String)
    (runScript : String → List String → String → ScriptOutput)
    (copyFolder : JValue → List String → String → Except String Unit)
    (outputPath : String) (pre post : List FileInput) (f : FileInput)
    (tpre tpost : List MetadataTarget) (tg : MetadataTarget)
    (s0 s1 s2 : TargetsMap) (pm0 : ProjectMap) (ctx : TemplateContext)
    (manifest : String) (proj : ArgoCDProject) (script : String)
    (hpre : processFiles cfg render runScript copyFolder outputPath pre s0 = Except.ok s1)
    (htargets : f.metadata.targets = tpre ++ tg :: tpost)
    (htpre : processTargets cfg render runScript copyFolder outputPath f tpre s1
      = Except.ok s2)
    (hknown : assocGet tg.name s2 = some pm0)
    (hctx : template_context_for_dir f.app_dir tg.name f.metadata = Except.ok ctx)
    (hrender : generate_argo_application_for_dir cfg render f.metadata ctx
      = Except.ok manifest)
    (hlookup : assocGet ctx.project
        (create_or_update_app_project_for_dir cfg f.metadata ctx pm0) = some proj)
    (hcopy : copyFolder
        (merge (cfg.vars.getD default_serde_object) (tg.vars.getD default_serde_object))
        f.app_dir (out_folder_path outputPath ctx) = Except.ok ())
    (hscript : f.metadata.script = some script)
    (hfail : (runScript script f.app_dir (out_folder_path outputPath ctx)).success = false) :
    processFiles cfg render runScript copyFolder outputPath (pre ++ f :: post) s0
      = Except.error (ProcErr.hook
          (runScript script f.app_dir (out_folder_path outputPath ctx)).stdout) := by
  have hstep : stepTarget cfg render runScript copyFolder outputPath f tg s2
      = Except.error (ProcErr.hook
          (runScript script f.app_dir (out_folder_path outputPath ctx)).stdout) := by
    unfold stepTarget
    rw [hknown]
    dsimp only
    rw [hctx]
    dsimp only
    rw [hrender]
    dsimp only
    rw [hlookup]
    dsimp only
    rw [hcopy]
    dsimp only
    rw [hscript]
    dsimp only
    rw [hfail]
    rfl
  have hfile : processFile cfg render runScript copyFolder outputPath f s1
      = Except.error (ProcErr.hook
          (runScript script f.app_dir (out_folder_path outputPath ctx)).stdout) := by
    unfold processFile
    rw [htargets,
      processTargets_append_ok cfg render runScript copyFolder outputPath f tpre
        (tg :: tpost) s1 s2 htpre]
    simp only [processTargets]
    rw [hstep]
  rw [processFiles_append_ok cfg render runScript copyFolder outputPath pre (f :: post)
    s0 s1 hpre]
  simp only [processFiles]
  rw [hfile]

def c8Metadata : Metadata :=
  { «namespace» := none, script := some "deploy.sh", application_options := none,
    project_options := none, targets := [⟨"prod", none⟩] }

def c8File : FileInput := { app_dir := ["shop", "api"], metadata := c8Metadata }

def c8run : String → List String → String → ScriptOutput := fun _ _ _ => ⟨false, "boom"⟩

def c8Context : TemplateContext :=
  { «namespace» := "shop", normalized_project := "shop", normalized_app_name := "api",
    project := "shop", app_name := "api", path := "prod/shop/api", target_name := "prod" }

def c8proj : ArgoCDProject :=
  { project :=
      { api_version := "argoproj.io/v1alpha1", kind := "AppProject",
        metadata := { name := "shop", «namespace» := "argocd" },
        spec :=
          { destinations := [⟨"in-cluster", "shop", inClusterServer⟩],
            cluster_resource_whitelist := [⟨"", "Namespace"⟩],
            source_repos := ["https://example.com/repo.git"] } },
    applications := [] }

/-- C8 witness: the hook of the first metadata file exits non-zero with
stdout `boom`; the pass over it plus one further file fails with exactly
that hook error. -/
theorem hook_failure_aborts_run_witness :
    processFiles c3Config c3render c8run c3copy "out" ([] ++ c8File :: [c8File])
        (initState c3Config)
      = Except.error (ProcErr.hook "boom") :=
  hook_failure_aborts_run c3Config c3render c8run c3copy "out" [] [c8File] c8File
    [] [] ⟨"prod", none⟩ (initState c3Config) (initState c3Config) (initState c3Config)
    [] c8Context "MANIFEST" c8proj "deploy.sh"
    rfl rfl rfl (by decide) (by decide) (by decide) (by decide) rfl rfl rfl
